import Mathlib

/-!
Verification development for the webdnn graph-compilation pipeline
(example driver `src/example/convert_resnet/convert_resnet.py` plus the
`graph_builder` core it drives: Chainer graph converter, general optimizer,
and the WebGPU / fallback backend descriptor generators).

The driver code is embedded from the source file directly.  The
`graph_builder` core (converter, optimizer, generators) is not part of the
repository snapshot, so those components are modelled from the
specification, as noted on each definition.
-/

namespace WebDNN

/-! ## Core IR data model

Modelled from the spec: the Graph IR of `graph_builder.graph` — Variables
(tensors with identifiers, shapes and optional constant payloads) and
Operators (kind tag, kind-specific parameters, resolved operand shapes,
ordered inputs, output), owned by a Graph that also records the designated
input and output Variables. -/

/-- A tensor payload; element data modelled exactly (integers). -/
abbrev Tensor := List Int

/-- Modelled from the spec: the IR's tagged operator-kind set
(`graph_builder.graph.operators`). -/
inductive OpKind where
  | convolution2D
  | linear
  | relu
  | batchNormalization
  | maxPooling2D
  | averagePooling2D
  | reshape
  | elementwiseAdd
  | softmax
  deriving DecidableEq

/-- Modelled from the spec: an IR Operator — kind, kind-specific parameters
(encoded as numbers), resolved operand shapes (flattened), ordered input
Variable ids and the produced output Variable id. -/
structure Operator where
  kind : OpKind
  params : List Nat
  shapes : List Nat
  inputs : List Nat
  output : Nat
  deriving DecidableEq

/-- Modelled from the spec: a Graph — constant Variables with their
payloads, designated input Variables, the operator list in original
insertion order, and designated output Variables. -/
structure Graph where
  consts : List (Nat × Tensor)
  inputVars : List Nat
  operators : List Operator
  outputVars : List Nat
  deriving DecidableEq

/-- Association-list lookup for variable environments. -/
def envLookup : List (Nat × Tensor) → Nat → Option Tensor
  | [], _ => none
  | (w, t) :: rest, v => if v = w then some t else envLookup rest v

/-! ## Stable topological traversal

Modelled from the spec: backend generators traverse the Graph in a
topological order consistent with operator dependencies, breaking ties by
stable original insertion order. -/

/-- Extract the first element of a list satisfying `p`, returning it and
the remaining list with original order preserved. -/
def extractFirst (p : α → Bool) : List α → Option (α × List α)
  | [] => none
  | x :: xs =>
    if p x then some (x, xs)
    else
      match extractFirst p xs with
      | none => none
      | some (y, ys) => some (y, x :: ys)

/-- An operator is ready once all of its input Variables are available. -/
def ready (avail : List Nat) (op : Operator) : Bool :=
  op.inputs.all (fun v => decide (v ∈ avail))

/-- Fuel-indexed scheduling loop: repeatedly emit the first ready operator
in insertion order, making its output available. -/
def topoSortAux (avail : List Nat) (rem : List Operator) : Nat → List Operator
  | 0 => []
  | fuel + 1 =>
    match extractFirst (ready avail) rem with
    | none => []
    | some (op, rest) => op :: topoSortAux (op.output :: avail) rest fuel

/-- Modelled from the spec: the generators' topological traversal of a
Graph, starting from constants and graph inputs. -/
def traverse (g : Graph) : List Operator :=
  topoSortAux (g.consts.map Prod.fst ++ g.inputVars) g.operators g.operators.length

/-! ## First-reference deduplication

Modelled from the spec: the WebGPU generator deduplicates kernel source
fragments by structural signature, keeping the order in which signatures
are first referenced by the traversal.  The same first-use ordering is
used for packing referenced constants. -/

/-- One dedup step: append `s` unless already registered. -/
def addKernel [DecidableEq α] (acc : List α) (s : α) : List α :=
  if s ∈ acc then acc else acc ++ [s]

/-- Modelled from the spec: accumulate references left to right, keeping
the first occurrence of each distinct element. -/
def buildRegistry [DecidableEq α] (acc : List α) : List α → List α
  | [] => acc
  | s :: rest => buildRegistry (addKernel acc s) rest

/-- Remove every occurrence of `s`. -/
def removeAll [DecidableEq α] (s : α) : List α → List α
  | [] => []
  | t :: rest => if t = s then removeAll s rest else t :: removeAll s rest

/-- Remove every element that is a member of `acc`. -/
def removeMem [DecidableEq α] (acc : List α) : List α → List α
  | [] => []
  | t :: rest => if t ∈ acc then removeMem acc rest else t :: removeMem acc rest

/-- Specification-side description of first-occurrence deduplication. -/
def firstOccur [DecidableEq α] : List α → List α
  | [] => []
  | s :: rest => s :: removeAll s (firstOccur rest)

/-! ## Kernel signatures and kernel source synthesis

Modelled from the spec: the WebGPU generator emits one kernel source
fragment per (kind, parameters, shapes) combination; the synthesized
source embeds that structural signature, so distinct signatures yield
distinct source text. -/

/-- Structural signature of an operator: kind + parameters + shapes. -/
structure KernelSignature where
  kind : OpKind
  params : List Nat
  shapes : List Nat
  deriving DecidableEq

/-- The structural signature of an operator. -/
def sigOf (op : Operator) : KernelSignature :=
  ⟨op.kind, op.params, op.shapes⟩

/-- Numeric code of an operator kind. -/
def kindCode : OpKind → Nat
  | .convolution2D => 0
  | .linear => 1
  | .relu => 2
  | .batchNormalization => 3
  | .maxPooling2D => 4
  | .averagePooling2D => 5
  | .reshape => 6
  | .elementwiseAdd => 7
  | .softmax => 8

/-- Flatten a signature into a self-delimiting number sequence. -/
def sigToNatList (s : KernelSignature) : List Nat :=
  kindCode s.kind :: s.params.length :: (s.params ++ s.shapes)

/-- Unary rendering of one number. -/
def natChars (n : Nat) : List Char := List.replicate n 'x'

/-- Comma-separated unary rendering of a number sequence. -/
def natListChars : List Nat → List Char
  | [] => []
  | n :: rest => natChars n ++ ',' :: natListChars rest

/-- Modelled from the spec: the kernel source text synthesized for a
signature; the text embeds the signature, making it unique per
signature. -/
def sourceOf (s : KernelSignature) : String :=
  String.mk ('k' :: natListChars (sigToNatList s))

/-! ## Weight packing

Modelled from the spec: generators pack every referenced constant
Variable's data into the flat Weight Buffer in traversal (first-use)
order, recording a (variable, offset, length) entry per constant. -/

/-- Pack payloads starting at `off`, producing Descriptor entries
(variable id, byte offset, length) and the buffer contents. -/
def packAux (off : Nat) : List (Nat × Tensor) → List (Nat × Nat × Nat) × Tensor
  | [] => ([], [])
  | (v, d) :: rest =>
    let r := packAux (off + d.length) rest
    ((v, off, d.length) :: r.1, d ++ r.2)

/-- Pack a list of constant payloads from offset 0. -/
def packWeights (l : List (Nat × Tensor)) : List (Nat × Nat × Nat) × Tensor :=
  packAux 0 l

/-- Is a variable a constant of the graph? -/
def isConstVar (g : Graph) (v : Nat) : Bool :=
  (envLookup g.consts v).isSome

/-- Constant variables referenced by the traversal, in reference order
(with repetitions). -/
def constRefs (g : Graph) : List Nat :=
  (traverse g).flatMap (fun op => op.inputs.filter (isConstVar g))

/-- Constants in first-use order. -/
def packOrder (g : Graph) : List Nat :=
  buildRegistry [] (constRefs g)

/-- The deduplicated constant payload list, in first-use order. -/
def weightList (g : Graph) : List (Nat × Tensor) :=
  (packOrder g).map (fun v => (v, (envLookup g.consts v).getD []))

/-! ## Backend descriptors and generators

Modelled from the spec: `graph_builder.backend.webgpu.generator.generate`
and `graph_builder.backend.fallback.generator.generate` — each lowers a
Graph to a Descriptor (execution order, kernel registry for WebGPU,
weight entries) plus the packed Weight Buffer. -/

/-- WebGPU Descriptor: execution order (kernel signature per traversed
operator), deduplicated kernel registry, and weight entries. -/
structure WebGPUDescriptor where
  execOrder : List KernelSignature
  kernelRegistry : List KernelSignature
  weightEntries : List (Nat × Nat × Nat)
  deriving DecidableEq

/-- Fallback Descriptor: execution order over portable reference
implementations, and weight entries. -/
structure FallbackDescriptor where
  execOrder : List Operator
  weightEntries : List (Nat × Nat × Nat)
  deriving DecidableEq

/-- The concatenated kernel source text of a WebGPU Descriptor
(`descriptor.concat_kernel_sources` in the driver). -/
def concat_kernel_sources (d : WebGPUDescriptor) : String :=
  String.join (d.kernelRegistry.map sourceOf)

/-- The list of kernel source bodies of a WebGPU Descriptor. -/
def kernelSources (d : WebGPUDescriptor) : List String :=
  d.kernelRegistry.map sourceOf

/-- Signatures referenced by the traversal, in traversal order. -/
def referencedSignatures (g : Graph) : List KernelSignature :=
  (traverse g).map sigOf

/-- Modelled from the spec: the WebGPU backend generator
(`generate_webgpu_descriptor` in the driver). -/
def generate_webgpu_descriptor (g : Graph) : WebGPUDescriptor × Tensor :=
  let sigs := referencedSignatures g
  let pw := packWeights (weightList g)
  (⟨sigs, buildRegistry [] sigs, pw.1⟩, pw.2)

/-- Modelled from the spec: the fallback backend generator
(`generate_fallback_descriptor` in the driver). -/
def generate_fallback_descriptor (g : Graph) : FallbackDescriptor × Tensor :=
  let pw := packWeights (weightList g)
  (⟨traverse g, pw.1⟩, pw.2)

/-! ## Reference evaluator

Modelled from the spec: a reference evaluator for the Graph IR, used to
state the Optimizer's numerical-equivalence contract.  Element data is
modelled exactly (integers), so equality of results is the tolerance-zero
instance of "equal within floating-point tolerance". -/

/-- Exact reference semantics of each operator kind. -/
def applyKind (k : OpKind) (params : List Nat) (ins : List Tensor) : Tensor :=
  match k, ins with
  | .relu, [t] => t.map (fun x => max x 0)
  | .elementwiseAdd, [a, b] => List.zipWith (fun x y => x + y) a b
  | .linear, [x, w] => [List.sum (List.zipWith (fun a b => a * b) x w)]
  | .batchNormalization, [t, gamma, beta] =>
      List.zipWith (fun a b => a + b) (List.zipWith (fun a b => a * b) t gamma) beta
  | .maxPooling2D, [t] => t.map (fun x => x * x)
  | .averagePooling2D, [t] => [t.sum]
  | .reshape, [t] => t
  | .softmax, [t] => t
  | .convolution2D, [x, w] => [List.sum (List.zipWith (fun a b => a * b) x w)]
  | _, _ => params.map (fun n => (n : Int))

/-- Run the operators in order, extending the environment with each
computed output. -/
def runOps (env : List (Nat × Tensor)) : List Operator → List (Nat × Tensor)
  | [] => env
  | op :: rest =>
    runOps
      ((op.output,
        applyKind op.kind op.params
          (op.inputs.map (fun v => (envLookup env v).getD []))) :: env)
      rest

/-- Evaluate a Graph on an assignment of its input Variables. -/
def evalGraph (g : Graph) (ins : List (Nat × Tensor)) : List Tensor :=
  let env := runOps (g.consts ++ ins) g.operators
  g.outputVars.map (fun v => (envLookup env v).getD [])

/-! ## Optimizer

Modelled from the spec: `GeneralOptimizer.optimize` of
`graph_builder.frontend.general_optimizer` — a rewrite pass pipeline whose
constant-folding pass evaluates operators all of whose inputs are
constant, replacing each with a constant Variable. -/

/-- One in-order constant-folding sweep: returns the newly folded
constants and the surviving operators. -/
def foldOps (consts : List (Nat × Tensor)) :
    List Operator → List (Nat × Tensor) × List Operator
  | [] => ([], [])
  | op :: rest =>
    if op.inputs.all (fun v => (envLookup consts v).isSome) then
      let val :=
        applyKind op.kind op.params
          (op.inputs.map (fun v => (envLookup consts v).getD []))
      let r := foldOps ((op.output, val) :: consts) rest
      ((op.output, val) :: r.1, r.2)
    else
      let r := foldOps consts rest
      (r.1, op :: r.2)

/-- Modelled from the spec: the Optimizer entry point
(`GeneralOptimizer().optimize(graph)` in the driver). -/
def optimize (g : Graph) : Graph :=
  let r := foldOps g.consts g.operators
  { g with consts := r.1 ++ g.consts, operators := r.2 }

/-! ## Graph converter

Modelled from the spec: `ChainerGraphConverter.convert` of
`graph_builder.graph.converters.chainer` — maps a framework-native trace
(ordered nodes with operator-kind tags) onto the IR, failing with
`UnsupportedOperator` on a kind outside the supported set. -/

/-- A node of the framework-native computational graph trace. -/
structure TraceNode where
  kindTag : String
  params : List Nat
  shapes : List Nat
  inputs : List Nat
  output : Nat
  deriving DecidableEq

/-- The framework-native trace handed to the converter: ordered nodes plus
constant tensor payloads. -/
structure ChainerTrace where
  nodes : List TraceNode
  consts : List (Nat × Tensor)
  deriving DecidableEq

/-- Modelled from the spec: the supported operator-kind set, mapping
framework tags onto IR kinds. -/
def supportedKind (tag : String) : Option OpKind :=
  if tag = "Convolution2DFunction" then some .convolution2D
  else if tag = "LinearFunction" then some .linear
  else if tag = "ReLU" then some .relu
  else if tag = "FixedBatchNormalization" then some .batchNormalization
  else if tag = "MaxPooling2D" then some .maxPooling2D
  else if tag = "AveragePooling2D" then some .averagePooling2D
  else if tag = "Reshape" then some .reshape
  else if tag = "Add" then some .elementwiseAdd
  else if tag = "Softmax" then some .softmax
  else none

/-- Converter failure: an operator kind outside the supported set,
identified by its tag. -/
inductive ConvertError where
  | unsupportedOperator (kindTag : String)
  deriving DecidableEq

/-- Convert one trace node, or fail naming the offending kind. -/
def convertNode (t : TraceNode) : Except ConvertError Operator :=
  match supportedKind t.kindTag with
  | some k => .ok ⟨k, t.params, t.shapes, t.inputs, t.output⟩
  | none => .error (.unsupportedOperator t.kindTag)

/-- Convert all trace nodes in order; the first unsupported node aborts
the whole conversion. -/
def convertNodes : List TraceNode → Except ConvertError (List Operator)
  | [] => .ok []
  | t :: rest =>
    match convertNode t with
    | .error e => .error e
    | .ok op =>
      match convertNodes rest with
      | .error e => .error e
      | .ok ops => .ok (op :: ops)

/-- Modelled from the spec: `ChainerGraphConverter.convert` — build the IR
Graph from a trace and the designated input/output Variables. -/
def convert (tr : ChainerTrace) (inputVars outputVars : List Nat) :
    Except ConvertError Graph :=
  match convertNodes tr.nodes with
  | .error e => .error e
  | .ok ops => .ok ⟨tr.consts, inputVars, ops, outputVars⟩

/-! ## Dependency well-formedness -/

/-- No operator reads a variable produced by itself or by a later
operator: the list order is a topological order. -/
def noForwardRefB : List Operator → Bool
  | [] => true
  | op :: rest =>
    ((op :: rest).all fun m => op.inputs.all fun v => decide (v ≠ m.output)) &&
      noForwardRefB rest

/-- The trace-level analogue of `noForwardRefB`. -/
def traceNoForwardRefB : List TraceNode → Bool
  | [] => true
  | t :: rest =>
    ((t :: rest).all fun m => t.inputs.all fun v => decide (v ≠ m.output)) &&
      traceNoForwardRefB rest

/-! ## Driver embedding

The remaining definitions are embedded from
`src/example/convert_resnet/convert_resnet.py` directly. -/

/-- Backend dispatch outcome of the drivers' if/elif/else chain
(lines 115-122 and 173-180). -/
inductive Dispatch where
  | genWebgpu
  | genFallback
  | notImplementedError
  deriving DecidableEq

/-- The backend dispatch of both drivers: `webgpu` and `fallback` are
handled, anything else reaches `raise NotImplementedError()`. -/
def backendDispatch (backend : String) : Dispatch :=
  if backend = "webgpu" then .genWebgpu
  else if backend = "fallback" then .genFallback
  else .notImplementedError

/-- Raw command line for `main_resnet`: optional `--model`, optional
`--backend`, boolean `--optimize`. -/
structure RawResnetArgs where
  model : Option String
  backend : Option String
  optimizeFlag : Bool
  deriving DecidableEq

/-- Parsed arguments of `main_resnet`. -/
structure ResnetArgs where
  model : String
  backend : String
  optimizeFlag : Bool
  deriving DecidableEq

/-- argparse semantics of one option with `default` and `choices`: absent
means the default; a supplied value outside the choices is rejected. -/
def parseChoice (given : Option String) (dflt : String) (choices : List String) :
    Except String String :=
  match given with
  | none => .ok dflt
  | some v => if v ∈ choices then .ok v else .error v

/-- The argument parser of `main_resnet` (lines 87-91):
`--model` with choices vgg16/resnet50, `--backend` with choices
webgpu/fallback, `--optimize` flag. -/
def parse_args_resnet (raw : RawResnetArgs) : Except String ResnetArgs :=
  match parseChoice raw.model "vgg16" ["vgg16", "resnet50"] with
  | .error v => .error v
  | .ok m =>
    match parseChoice raw.backend "webgpu" ["webgpu", "fallback"] with
    | .error v => .error v
    | .ok b => .ok ⟨m, b, raw.optimizeFlag⟩

/-- Raw command line for `main`: positional `model` (unvalidated),
optional `--unit`, positional `model_path`, optional `--backend`,
boolean `--optimize`. -/
structure RawMainArgs where
  model : String
  unit : Option Nat
  modelPath : String
  backend : Option String
  optimizeFlag : Bool
  deriving DecidableEq

/-- Parsed arguments of `main`. -/
structure MainArgs where
  model : String
  unit : Option Nat
  modelPath : String
  backend : String
  optimizeFlag : Bool
  deriving DecidableEq

/-- The argument parser of `main` (lines 142-148): the positional `model`
argument has no `choices` restriction, `--backend` has choices
webgpu/fallback. -/
def parse_args_main (raw : RawMainArgs) : Except String MainArgs :=
  match parseChoice raw.backend "webgpu" ["webgpu", "fallback"] with
  | .error v => .error v
  | .ok b => .ok ⟨raw.model, raw.unit, raw.modelPath, b, raw.optimizeFlag⟩

/-- The model dispatch of `main` (lines 152-160): only MLP, CNN2 and CNN3
assign the local `link`; there is no else branch. -/
def modelLink (model : String) : Option String :=
  if model = "MLP" then some "MLP"
  else if model = "CNN2" then some "CNN2"
  else if model = "CNN3" then some "CNN3"
  else none

/-- Observable side effects performed by `main`, in program order. -/
inductive Step where
  | loadDataset
  | assignModel (m : String)
  | loadModel
  | buildTrace
  | convertGraph
  deriving DecidableEq

/-- Outcome of a driver run. -/
inductive MainOutcome where
  | finished
  | unboundLocalNameError (varName : String)
  deriving DecidableEq

/-- The effect trace of `main` up to graph conversion: the MNIST dataset
is loaded (line 150), then the model dispatch runs; when no branch
matched, the first use of `link` at `load_npz(args.model_path, link)`
(line 161) raises an unbound-local NameError before the model is loaded,
the graph is traced, or conversion happens. -/
def mainSteps (args : MainArgs) : List Step × MainOutcome :=
  match modelLink args.model with
  | some m =>
    ([.loadDataset, .assignModel m, .loadModel, .buildTrace, .convertGraph], .finished)
  | none => ([.loadDataset], .unboundLocalNameError "link")

/-! ## Full pipeline and driver runs -/

/-- Tagged backend generator output. -/
inductive BackendOut where
  | webgpuOut (d : WebGPUDescriptor) (weights : Tensor)
  | fallbackOut (d : FallbackDescriptor) (weights : Tensor)
  deriving DecidableEq

/-- Backend selector. -/
inductive Backend where
  | webgpu
  | fallback
  deriving DecidableEq

/-- Run the selected backend generator on a Graph. -/
def runBackend (b : Backend) (g : Graph) : BackendOut :=
  match b with
  | .webgpu =>
    .webgpuOut (generate_webgpu_descriptor g).1 (generate_webgpu_descriptor g).2
  | .fallback =>
    .fallbackOut (generate_fallback_descriptor g).1 (generate_fallback_descriptor g).2

/-- The pipeline as invoked by the drivers: convert, optionally optimize,
then generate. -/
def pipeline (tr : ChainerTrace) (inputVars outputVars : List Nat)
    (optimizeFlag : Bool) (b : Backend) : Except ConvertError BackendOut :=
  match convert tr inputVars outputVars with
  | .error e => .error e
  | .ok g => .ok (runBackend b (if optimizeFlag then optimize g else g))

/-- Modelled from the spec: `graph_builder.optimizer.util.dump` — graph
introspection printing controlled by the process-wide debug flag
(`flags.DEBUG`); it emits diagnostic text exactly when the flag is set. -/
def dump (debug : Bool) (_g : Graph) : List String :=
  if debug then ["graph dump"] else []

/-- Result of a full driver run. -/
inductive RunResult where
  | converr (e : ConvertError)
  | unboundLocal (varName : String)
  | notImplemented
  | done (out : BackendOut)
  deriving DecidableEq

/-- The `main_resnet` driver (lines 86-138): convert, dump when
`flags.DEBUG` is set (line 109), optionally optimize, dispatch on the
backend string.  Returns the result and the emitted diagnostic lines. -/
def mainResnetRun (tr : ChainerTrace) (inputVars outputVars : List Nat)
    (args : ResnetArgs) (debug : Bool) : RunResult × List String :=
  match convert tr inputVars outputVars with
  | .error e => (.converr e, [])
  | .ok g =>
    let log1 := if debug then dump debug g else []
    let g2 := if args.optimizeFlag then optimize g else g
    match backendDispatch args.backend with
    | .genWebgpu =>
      (.done (.webgpuOut (generate_webgpu_descriptor g2).1
        (generate_webgpu_descriptor g2).2), log1)
    | .genFallback =>
      (.done (.fallbackOut (generate_fallback_descriptor g2).1
        (generate_fallback_descriptor g2).2), log1)
    | .notImplementedError => (.notImplemented, log1)

/-- The `main` driver (lines 141-192): model dispatch (unbound `link` on
an unknown model), convert, unconditional dumps (lines 167 and 171),
optional optimize, backend dispatch. -/
def mainRun (tr : ChainerTrace) (inputVars outputVars : List Nat)
    (args : MainArgs) (debug : Bool) : RunResult × List String :=
  match modelLink args.model with
  | none => (.unboundLocal "link", [])
  | some _ =>
    match convert tr inputVars outputVars with
    | .error e => (.converr e, [])
    | .ok g =>
      let log1 := dump debug g
      let g2 := if args.optimizeFlag then optimize g else g
      let log2 := dump debug g2
      match backendDispatch args.backend with
      | .genWebgpu =>
        (.done (.webgpuOut (generate_webgpu_descriptor g2).1
          (generate_webgpu_descriptor g2).2), log1 ++ log2)
      | .genFallback =>
        (.done (.fallbackOut (generate_fallback_descriptor g2).1
          (generate_fallback_descriptor g2).2), log1 ++ log2)
      | .notImplementedError => (.notImplemented, log1 ++ log2)

/-! ## Concrete fixtures (used to instantiate the theorems below) -/

/-- Elementwise addition of constant 0 and graph input 1. -/
def exOpAdd : Operator := ⟨.elementwiseAdd, [], [2, 2], [0, 1], 2⟩

/-- ReLU on the addition's result. -/
def exOpRelu : Operator := ⟨.relu, [], [2], [2], 3⟩

/-- A two-operator graph with one constant. -/
def exGraph : Graph := ⟨[(0, [5, -3])], [1], [exOpAdd, exOpRelu], [3]⟩

/-- A graph whose operators are all foldable to constants. -/
def exFoldGraph : Graph :=
  ⟨[(0, [2]), (1, [3])], [4],
   [⟨.elementwiseAdd, [], [1, 1], [0, 1], 2⟩, ⟨.relu, [], [1], [2], 3⟩], [3]⟩

/-- A fully supported two-node trace. -/
def exTrace : ChainerTrace :=
  ⟨[⟨"Convolution2DFunction", [1], [4], [0], 1⟩, ⟨"ReLU", [], [4], [1], 2⟩],
   [(0, [1, 2])]⟩

/-- The graph `convert` produces from `exTrace`. -/
def exConvGraph : Graph :=
  ⟨[(0, [1, 2])], [0],
   [⟨.convolution2D, [1], [4], [0], 1⟩, ⟨.relu, [], [4], [1], 2⟩], [2]⟩

/-- A trace containing an operator kind outside the supported set. -/
def exBadTrace : ChainerTrace :=
  ⟨[⟨"ReLU", [], [4], [0], 1⟩, ⟨"DepthwiseConv", [], [4], [1], 2⟩], []⟩

/-! ## Helper lemmas: environment lookup -/

theorem envLookup_append_some {xs : List (Nat × Tensor)} {v : Nat} {t : Tensor}
    (ys : List (Nat × Tensor)) (h : envLookup xs v = some t) :
    envLookup (xs ++ ys) v = some t := by
  induction xs with
  | nil => simp [envLookup] at h
  | cons p rest ih =>
    obtain ⟨w, u⟩ := p
    by_cases hv : v = w
    · simpa [envLookup, hv] using h
    · simp [envLookup, hv] at h ⊢
      exact ih h

theorem envLookup_append_none {xs : List (Nat × Tensor)} {v : Nat}
    (ys : List (Nat × Tensor)) (h : envLookup xs v = none) :
    envLookup (xs ++ ys) v = envLookup ys v := by
  induction xs with
  | nil => simp [envLookup]
  | cons p rest ih =>
    obtain ⟨w, u⟩ := p
    by_cases hv : v = w
    · simp [envLookup, hv] at h
    · simp [envLookup, hv] at h ⊢
      exact ih h

theorem envLookup_none_of_notin {xs : List (Nat × Tensor)} {v : Nat}
    (h : v ∉ xs.map Prod.fst) : envLookup xs v = none := by
  induction xs with
  | nil => rfl
  | cons p rest ih =>
    obtain ⟨w, u⟩ := p
    simp only [List.map_cons, List.mem_cons] at h
    push_neg at h
    simp [envLookup, h.1, ih h.2]

theorem envLookup_append_both_none {xs ys : List (Nat × Tensor)} {v : Nat}
    (h : envLookup (xs ++ ys) v = none) :
    envLookup xs v = none ∧ envLookup ys v = none := by
  cases hx : envLookup xs v with
  | some t => rw [envLookup_append_some ys hx] at h; exact absurd h (by simp)
  | none => rw [envLookup_append_none ys hx] at h; exact ⟨rfl, h⟩

/-! ## Helper lemmas: stable selection -/

theorem extractFirst_spec {p : α → Bool} :
    ∀ {l : List α} {x : α} {rest : List α},
      extractFirst p l = some (x, rest) →
      ∃ l₁ l₂, l = l₁ ++ x :: l₂ ∧ rest = l₁ ++ l₂ ∧
        (∀ y ∈ l₁, p y = false) ∧ p x = true := by
  intro l
  induction l with
  | nil => intro x rest h; simp [extractFirst] at h
  | cons a as ih =>
    intro x rest h
    by_cases ha : p a
    · simp only [extractFirst, ha, if_true, Option.some.injEq, Prod.mk.injEq] at h
      obtain ⟨hx, hr⟩ := h
      subst hx; subst hr
      exact ⟨[], as, rfl, rfl, by intro y hy; simp at hy, ha⟩
    · simp only [extractFirst, ha, if_false] at h
      cases hrec : extractFirst p as with
      | none => rw [hrec] at h; exact absurd h (by simp)
      | some pr =>
        obtain ⟨y, ys⟩ := pr
        rw [hrec] at h
        simp only [Option.some.injEq, Prod.mk.injEq] at h
        obtain ⟨rfl, rfl⟩ := h
        obtain ⟨l₁, l₂, hl, hr, hfail, hsat⟩ := ih hrec
        refine ⟨a :: l₁, l₂, by simp [hl], by simp [hr], ?_, hsat⟩
        intro z hz
        rcases List.mem_cons.mp hz with hz | hz
        · subst hz; exact Bool.of_not_eq_true ha
        · exact hfail z hz

/-! ## Helper lemmas: first-occurrence deduplication -/

theorem mem_removeAll [DecidableEq α] {x s : α} :
    ∀ {l : List α}, x ∈ removeAll s l ↔ x ∈ l ∧ x ≠ s := by
  intro l
  induction l with
  | nil => simp [removeAll]
  | cons t rest ih =>
    by_cases ht : t = s
    · subst ht
      rw [removeAll, if_pos rfl, ih]
      simp only [List.mem_cons]
      constructor
      · rintro ⟨h1, h2⟩; exact ⟨Or.inr h1, h2⟩
      · rintro ⟨h1 | h1, h2⟩
        · exact absurd h1 h2
        · exact ⟨h1, h2⟩
    · simp only [removeAll, ht, if_false, List.mem_cons, ih]
      constructor
      · rintro (h | ⟨h1, h2⟩)
        · exact ⟨Or.inl h, by simpa [h] using ht⟩
        · exact ⟨Or.inr h1, h2⟩
      · rintro ⟨h | h, h2⟩
        · exact Or.inl h
        · exact Or.inr ⟨h, h2⟩

theorem removeAll_sublist [DecidableEq α] (s : α) :
    ∀ l : List α, List.Sublist (removeAll s l) l := by
  intro l
  induction l with
  | nil => simp [removeAll]
  | cons t rest ih =>
    by_cases ht : t = s
    · rw [removeAll, if_pos ht]
      exact List.Sublist.cons t ih
    · rw [removeAll, if_neg ht]
      exact List.Sublist.cons₂ t ih

theorem mem_firstOccur [DecidableEq α] {x : α} :
    ∀ {l : List α}, x ∈ firstOccur l ↔ x ∈ l := by
  intro l
  induction l with
  | nil => simp [firstOccur]
  | cons s rest ih =>
    simp only [firstOccur, List.mem_cons, mem_removeAll, ih]
    by_cases hx : x = s
    · simp [hx]
    · simp [hx]

theorem nodup_firstOccur [DecidableEq α] :
    ∀ l : List α, (firstOccur l).Nodup := by
  intro l
  induction l with
  | nil => simp [firstOccur]
  | cons s rest ih =>
    refine List.nodup_cons.mpr ⟨?_, ?_⟩
    · intro hmem
      exact (mem_removeAll.mp hmem).2 rfl
    · exact ((removeAll_sublist s (firstOccur rest)).nodup) ih

theorem removeMem_nil [DecidableEq α] :
    ∀ l : List α, removeMem [] l = l := by
  intro l
  induction l with
  | nil => rfl
  | cons t rest ih => simp [removeMem, ih]

theorem removeMem_removeAll_of_mem [DecidableEq α] {s : α} {acc : List α}
    (hs : s ∈ acc) : ∀ l : List α, removeMem acc (removeAll s l) = removeMem acc l := by
  intro l
  induction l with
  | nil => rfl
  | cons t rest ih =>
    by_cases ht : t = s
    · subst ht
      simp [removeAll, removeMem, hs, ih]
    · by_cases hta : t ∈ acc
      · simp [removeAll, removeMem, ht, hta, ih]
      · simp [removeAll, removeMem, ht, hta, ih]

theorem removeMem_append_singleton [DecidableEq α] (acc : List α) (s : α) :
    ∀ l : List α, removeMem (acc ++ [s]) l = removeMem acc (removeAll s l) := by
  intro l
  induction l with
  | nil => rfl
  | cons t rest ih =>
    by_cases ht : t = s
    · subst ht
      simp [removeMem, removeAll, ih]
    · by_cases hta : t ∈ acc
      · simp [removeMem, removeAll, ht, hta, ih]
      · have : t ∉ acc ++ [s] := by simp [hta, ht]
        simp [removeMem, removeAll, ht, hta, this, ih]

theorem buildRegistry_eq [DecidableEq α] :
    ∀ (l acc : List α), buildRegistry acc l = acc ++ removeMem acc (firstOccur l) := by
  intro l
  induction l with
  | nil => intro acc; simp [buildRegistry, removeMem]
  | cons s rest ih =>
    intro acc
    by_cases hs : s ∈ acc
    · simp only [buildRegistry, addKernel, hs, if_true, ih, firstOccur]
      rw [removeMem, if_pos hs, removeMem_removeAll_of_mem hs]
    · simp only [buildRegistry, addKernel, hs, if_false, ih, firstOccur]
      rw [removeMem, if_neg hs, removeMem_append_singleton, List.append_assoc]
      simp

theorem buildRegistry_nil_eq_firstOccur [DecidableEq α] (l : List α) :
    buildRegistry [] l = firstOccur l := by
  rw [buildRegistry_eq, removeMem_nil, List.nil_append]

/-! ## Helper lemmas: weight packing -/

theorem packAux_entries_fst :
    ∀ (l : List (Nat × Tensor)) (off : Nat),
      (packAux off l).1.map (fun e => e.1) = l.map Prod.fst := by
  intro l
  induction l with
  | nil => intro off; rfl
  | cons p rest ih =>
    intro off
    obtain ⟨v, d⟩ := p
    simp [packAux, ih]

theorem packAux_buffer :
    ∀ (l : List (Nat × Tensor)) (off : Nat),
      (packAux off l).2 = l.flatMap Prod.snd := by
  intro l
  induction l with
  | nil => intro off; rfl
  | cons p rest ih =>
    intro off
    obtain ⟨v, d⟩ := p
    simp [packAux, ih]

theorem packAux_bounds :
    ∀ (l : List (Nat × Tensor)) (off : Nat),
      ∀ e ∈ (packAux off l).1,
        off ≤ e.2.1 ∧ e.2.1 + e.2.2 ≤ off + (packAux off l).2.length := by
  intro l
  induction l with
  | nil => intro off e he; simp [packAux] at he
  | cons p rest ih =>
    intro off e he
    obtain ⟨v, d⟩ := p
    simp only [packAux, List.mem_cons] at he
    rcases he with he | he
    · subst he
      simp only [packAux]
      refine ⟨le_refl off, ?_⟩
      simp [Nat.add_assoc]
    · obtain ⟨h1, h2⟩ := ih (off + d.length) e he
      constructor
      · exact le_trans (Nat.le_add_right off d.length) h1
      · calc e.2.1 + e.2.2 ≤ off + d.length + (packAux (off + d.length) rest).2.length := h2
          _ = off + (d ++ (packAux (off + d.length) rest).2).length := by
              simp [Nat.add_assoc]
          _ = off + ((packAux off ((v, d) :: rest)).2).length := by simp [packAux]

theorem packAux_pairwise :
    ∀ (l : List (Nat × Tensor)) (off : Nat),
      ((packAux off l).1).Pairwise (fun a b => a.2.1 + a.2.2 ≤ b.2.1) := by
  intro l
  induction l with
  | nil => intro off; simp [packAux]
  | cons p rest ih =>
    intro off
    obtain ⟨v, d⟩ := p
    simp only [packAux]
    refine List.pairwise_cons.mpr ⟨?_, ih (off + d.length)⟩
    intro e he
    exact (packAux_bounds rest (off + d.length) e he).1

theorem packAux_entry_shape :
    ∀ (l : List (Nat × Tensor)) (off : Nat),
      List.Forall₂ (fun (e : Nat × Nat × Nat) (vd : Nat × Tensor) =>
        e.1 = vd.1 ∧ e.2.2 = vd.2.length) (packAux off l).1 l := by
  intro l
  induction l with
  | nil => intro off; simp [packAux]
  | cons p rest ih =>
    intro off
    obtain ⟨v, d⟩ := p
    simp only [packAux]
    exact List.Forall₂.cons ⟨rfl, rfl⟩ (ih (off + d.length))

/-! ## Helper lemmas: kernel source synthesis is injective -/

theorem kindCode_inj : ∀ a b : OpKind, kindCode a = kindCode b → a = b := by
  intro a b
  cases a <;> cases b <;> simp [kindCode]

theorem natChars_sep_inj {u v : List Char} :
    ∀ {a b : Nat}, natChars a ++ ',' :: u = natChars b ++ ',' :: v →
      a = b ∧ u = v := by
  intro a
  induction a with
  | zero =>
    intro b h
    cases b with
    | zero => simpa [natChars] using h
    | succ m =>
      simp only [natChars, List.replicate_zero, List.replicate_succ, List.nil_append,
        List.cons_append] at h
      injection h with h1 h2
      exact absurd h1 (by decide)
  | succ n ih =>
    intro b h
    cases b with
    | zero =>
      simp only [natChars, List.replicate_zero, List.replicate_succ, List.nil_append,
        List.cons_append] at h
      injection h with h1 h2
      exact absurd h1 (by decide)
    | succ m =>
      simp only [natChars, List.replicate_succ, List.cons_append] at h
      injection h with h1 h2
      obtain ⟨ab, uv⟩ := ih (show natChars n ++ ',' :: u = natChars m ++ ',' :: v by
        simpa [natChars] using h2)
      exact ⟨by rw [ab], uv⟩

theorem natListChars_inj :
    ∀ {l₁ l₂ : List Nat}, natListChars l₁ = natListChars l₂ → l₁ = l₂ := by
  intro l₁
  induction l₁ with
  | nil =>
    intro l₂ h
    cases l₂ with
    | nil => rfl
    | cons m rest =>
      simp only [natListChars] at h
      have : (natChars m ++ ',' :: natListChars rest).length = 0 := by rw [← h]; rfl
      simp [natChars] at this
  | cons n rest ih =>
    intro l₂ h
    cases l₂ with
    | nil =>
      simp only [natListChars] at h
      have : (natChars n ++ ',' :: natListChars rest).length = 0 := by rw [h]; rfl
      simp [natChars] at this
    | cons m rest₂ =>
      simp only [natListChars] at h
      obtain ⟨hnm, htail⟩ := natChars_sep_inj h
      rw [hnm, ih htail]

theorem sigToNatList_inj :
    ∀ s₁ s₂ : KernelSignature, sigToNatList s₁ = sigToNatList s₂ → s₁ = s₂ := by
  intro s₁ s₂ h
  obtain ⟨k₁, p₁, sh₁⟩ := s₁
  obtain ⟨k₂, p₂, sh₂⟩ := s₂
  simp only [sigToNatList, List.cons.injEq] at h
  obtain ⟨hk, hlen, happ⟩ := h
  have hk2 : k₁ = k₂ := kindCode_inj _ _ hk
  have hp : p₁ = p₂ ∧ sh₁ = sh₂ := List.append_inj happ hlen
  simp [hk2, hp.1, hp.2]

theorem sourceOf_inj :
    ∀ s₁ s₂ : KernelSignature, sourceOf s₁ = sourceOf s₂ → s₁ = s₂ := by
  intro s₁ s₂ h
  have hdata : 'k' :: natListChars (sigToNatList s₁)
      = 'k' :: natListChars (sigToNatList s₂) := congrArg String.data h
  simp only [List.cons.injEq, true_and] at hdata
  exact sigToNatList_inj _ _ (natListChars_inj hdata)

/-! ## Helper lemmas: evaluation environments -/

theorem mapCongrMem {f g : α → β} :
    ∀ l : List α, (∀ a ∈ l, f a = g a) → l.map f = l.map g := by
  intro l
  induction l with
  | nil => intro _; rfl
  | cons a rest ih =>
    intro h
    simp only [List.map_cons]
    rw [h a (by simp), ih (fun b hb => h b (by simp [hb]))]

theorem runOps_congr :
    ∀ (l : List Operator) (e₁ e₂ : List (Nat × Tensor)),
      (∀ v, envLookup e₁ v = envLookup e₂ v) →
      ∀ v, envLookup (runOps e₁ l) v = envLookup (runOps e₂ l) v := by
  intro l
  induction l with
  | nil => intro e₁ e₂ h v; exact h v
  | cons op rest ih =>
    intro e₁ e₂ h v
    simp only [runOps]
    have hval : op.inputs.map (fun u => (envLookup e₁ u).getD [])
        = op.inputs.map (fun u => (envLookup e₂ u).getD []) :=
      mapCongrMem _ (fun u _ => by rw [h u])
    rw [hval]
    apply ih
    intro w
    simp only [envLookup]
    by_cases hw : w = op.output
    · simp [hw]
    · simp [hw, h w]

theorem envLookup_middle {o : Nat} {t : Tensor} {ds env : List (Nat × Tensor)}
    (h : o ∉ ds.map Prod.fst) :
    ∀ v, envLookup (((o, t) :: ds) ++ env) v = envLookup (ds ++ (o, t) :: env) v := by
  intro v
  by_cases hv : v = o
  · have hds : envLookup ds v = none := by
      apply envLookup_none_of_notin
      simpa [hv] using h
    rw [envLookup_append_none ((o, t) :: env) hds]
    simp [envLookup, hv]
  · have hcons : envLookup (((o, t) :: ds) ++ env) v = envLookup (ds ++ env) v := by
      simp [envLookup, hv]
    rw [hcons]
    cases hds : envLookup ds v with
    | some u =>
      rw [envLookup_append_some env hds, envLookup_append_some ((o, t) :: env) hds]
    | none =>
      rw [envLookup_append_none env hds, envLookup_append_none ((o, t) :: env) hds]
      simp [envLookup, hv]

/-! ## Helper lemmas: constant folding -/

theorem foldOps_fst_sub :
    ∀ (l : List Operator) (consts : List (Nat × Tensor)),
      ∀ x ∈ (foldOps consts l).1.map Prod.fst, x ∈ l.map (fun op => op.output) := by
  intro l
  induction l with
  | nil => intro consts x hx; simp [foldOps] at hx
  | cons op rest ih =>
    intro consts x hx
    by_cases hP : op.inputs.all (fun v => (envLookup consts v).isSome) = true
    · simp only [foldOps, if_pos hP, List.map_cons, List.mem_cons] at hx
      rcases hx with hx | hx
      · simp [hx]
      · simp only [List.map_cons, List.mem_cons]
        exact Or.inr (ih _ x hx)
    · simp only [foldOps, if_neg hP] at hx
      simp only [List.map_cons, List.mem_cons]
      exact Or.inr (ih _ x hx)

theorem foldOps_snd_sublist :
    ∀ (l : List Operator) (consts : List (Nat × Tensor)),
      List.Sublist (foldOps consts l).2 l := by
  intro l
  induction l with
  | nil => intro consts; simp [foldOps]
  | cons op rest ih =>
    intro consts
    by_cases hP : op.inputs.all (fun v => (envLookup consts v).isSome) = true
    · simp only [foldOps, if_pos hP]
      exact List.Sublist.cons op (ih _)
    · simp only [foldOps, if_neg hP]
      exact List.Sublist.cons₂ op (ih _)

theorem noForwardRefB_cons {op : Operator} {rest : List Operator}
    (h : noForwardRefB (op :: rest) = true) :
    (∀ m ∈ op :: rest, ∀ v ∈ op.inputs, v ≠ m.output) ∧ noForwardRefB rest = true := by
  simp only [noForwardRefB, Bool.and_eq_true, List.all_eq_true] at h
  refine ⟨?_, h.2⟩
  intro m hm v hv
  have := h.1 m hm v hv
  simpa using this

theorem noForwardRefB_sublist :
    ∀ {l₁ l₂ : List Operator}, List.Sublist l₁ l₂ →
      noForwardRefB l₂ = true → noForwardRefB l₁ = true := by
  intro l₁ l₂ hsub
  induction hsub with
  | slnil => intro h; exact h
  | cons a hs ih =>
    intro h
    exact ih (noForwardRefB_cons h).2
  | cons₂ a hs ih =>
    intro h
    obtain ⟨hhead, htail⟩ := noForwardRefB_cons h
    simp only [noForwardRefB, Bool.and_eq_true, List.all_eq_true]
    refine ⟨?_, ih htail⟩
    intro m hm v hv
    have hm2 : ∀ u ∈ a.inputs, u ≠ m.output := by
      rcases List.mem_cons.mp hm with hm | hm
      · exact hhead m (List.mem_cons.mpr (Or.inl hm))
      · exact hhead m (List.mem_cons.mpr (Or.inr (hs.subset hm)))
    simpa using hm2 v hv

theorem foldOps_correct :
    ∀ (l : List Operator) (consts env : List (Nat × Tensor)),
      (∀ v t, envLookup consts v = some t → envLookup env v = some t) →
      (∀ op ∈ l, envLookup consts op.output = none) →
      (∀ op ∈ l, envLookup env op.output = none) →
      (l.map (fun op => op.output)).Nodup →
      noForwardRefB l = true →
      ∀ v, envLookup (runOps env l) v
        = envLookup (runOps ((foldOps consts l).1 ++ env) (foldOps consts l).2) v := by
  intro l
  induction l with
  | nil => intro consts env _ _ _ _ _ v; rfl
  | cons op rest ih =>
    intro consts env hsub hfc hfe hnd hfwd v
    obtain ⟨hfwdHead, hfwdTail⟩ := noForwardRefB_cons hfwd
    have hndPair : (∀ x ∈ rest, ¬ x.output = op.output) ∧
        (rest.map (fun m => m.output)).Nodup := by simpa using hnd
    have hndHead : op.output ∉ rest.map (fun m => m.output) := by
      intro hmem
      obtain ⟨m, hm, hmo⟩ := List.mem_map.mp hmem
      exact hndPair.1 m hm hmo
    have hndTail : (rest.map (fun m => m.output)).Nodup := hndPair.2
    by_cases hP : op.inputs.all (fun u => (envLookup consts u).isSome) = true
    · -- the operator folds: all inputs are constant
      have hvals : op.inputs.map (fun u => (envLookup env u).getD [])
          = op.inputs.map (fun u => (envLookup consts u).getD []) := by
        apply mapCongrMem
        intro u hu
        have husome := List.all_eq_true.mp hP u hu
        cases hcu : envLookup consts u with
        | none => rw [hcu] at husome; simp at husome
        | some t => rw [hsub u t hcu]
      set val := applyKind op.kind op.params
        (op.inputs.map (fun u => (envLookup consts u).getD [])) with hvaldef
      have hfold : foldOps consts (op :: rest)
          = ((op.output, val) :: (foldOps ((op.output, val) :: consts) rest).1,
             (foldOps ((op.output, val) :: consts) rest).2) := by
        simp only [foldOps, if_pos hP]
      have hrun : runOps env (op :: rest)
          = runOps ((op.output, val) :: env) rest := by
        simp only [runOps, hvals]
      rw [hfold, hrun]
      have hihyp := ih ((op.output, val) :: consts) ((op.output, val) :: env)
        (by
          intro u t hu
          simp only [envLookup] at hu ⊢
          by_cases huo : u = op.output
          · simpa [huo] using hu
          · simp only [huo, if_false] at hu ⊢
            exact hsub u t hu)
        (by
          intro m hm
          simp only [envLookup]
          have hmo : m.output ≠ op.output := by
            intro hEq
            exact hndHead (by simpa [hEq] using List.mem_map_of_mem (fun x => x.output) hm)
          simp only [hmo, if_false]
          exact hfc m (List.mem_cons.mpr (Or.inr hm)))
        (by
          intro m hm
          simp only [envLookup]
          have hmo : m.output ≠ op.output := by
            intro hEq
            exact hndHead (by simpa [hEq] using List.mem_map_of_mem (fun x => x.output) hm)
          simp only [hmo, if_false]
          exact hfe m (List.mem_cons.mpr (Or.inr hm)))
        hndTail hfwdTail v
      rw [hihyp]
      apply runOps_congr
      intro w
      have hnotin : op.output ∉ (foldOps ((op.output, val) :: consts) rest).1.map Prod.fst := by
        intro hmem
        exact hndHead (by simpa using foldOps_fst_sub rest _ op.output hmem)
      exact (envLookup_middle hnotin w).symm
    · -- the operator survives: some input is not constant
      have hfold : foldOps consts (op :: rest)
          = ((foldOps consts rest).1, op :: (foldOps consts rest).2) := by
        simp only [foldOps, if_neg hP]
      set valE := applyKind op.kind op.params
        (op.inputs.map (fun u => (envLookup env u).getD [])) with hvedef
      have hrun : runOps env (op :: rest) = runOps ((op.output, valE) :: env) rest := rfl
      have hnotin : op.output ∉ (foldOps consts rest).1.map Prod.fst := by
        intro hmem
        exact hndHead (by simpa using foldOps_fst_sub rest _ op.output hmem)
      have hinputs : op.inputs.map (fun u => (envLookup ((foldOps consts rest).1 ++ env) u).getD [])
          = op.inputs.map (fun u => (envLookup env u).getD []) := by
        apply mapCongrMem
        intro u hu
        have hunotin : u ∉ (foldOps consts rest).1.map Prod.fst := by
          intro hmem
          have humem := foldOps_fst_sub rest _ u hmem
          obtain ⟨m, hm, hmo⟩ := List.mem_map.mp humem
          exact hfwdHead m (List.mem_cons.mpr (Or.inr hm)) u hu hmo.symm
        rw [envLookup_append_none env (envLookup_none_of_notin hunotin)]
      have hrhs : runOps ((foldOps consts rest).1 ++ env) (op :: (foldOps consts rest).2)
          = runOps ((op.output, valE) :: ((foldOps consts rest).1 ++ env))
              (foldOps consts rest).2 := by
        simp only [runOps, hinputs]
      rw [hfold, hrun, hrhs]
      have hihyp := ih consts ((op.output, valE) :: env)
        (by
          intro u t hu
          simp only [envLookup]
          by_cases huo : u = op.output
          · rw [huo] at hu
            rw [hfc op (List.mem_cons.mpr (Or.inl rfl))] at hu
            exact absurd hu (by simp)
          · simp only [huo, if_false]
            exact hsub u t hu)
        (fun m hm => hfc m (List.mem_cons.mpr (Or.inr hm)))
        (by
          intro m hm
          simp only [envLookup]
          have hmo : m.output ≠ op.output := by
            intro hEq
            exact hndHead (by simpa [hEq] using List.mem_map_of_mem (fun x => x.output) hm)
          simp only [hmo, if_false]
          exact hfe m (List.mem_cons.mpr (Or.inr hm)))
        hndTail hfwdTail v
      rw [hihyp]
      apply runOps_congr
      intro w
      exact (envLookup_middle hnotin w).symm

/-! ## Helper lemmas: converter -/

theorem convertNodes_length :
    ∀ {ns : List TraceNode} {ops : List Operator},
      convertNodes ns = .ok ops → ops.length = ns.length := by
  intro ns
  induction ns with
  | nil => intro ops h; simp only [convertNodes, Except.ok.injEq] at h; simp [← h]
  | cons t rest ih =>
    intro ops h
    simp only [convertNodes] at h
    cases hcn : convertNode t with
    | error e => rw [hcn] at h; exact absurd h (by simp)
    | ok op =>
      rw [hcn] at h
      cases hrec : convertNodes rest with
      | error e => rw [hrec] at h; exact absurd h (by simp)
      | ok ops2 =>
        rw [hrec] at h
        simp only [Except.ok.injEq] at h
        simp [← h, ih hrec]

theorem convertNodes_shape :
    ∀ {ns : List TraceNode} {ops : List Operator},
      convertNodes ns = .ok ops →
      List.Forall₂ (fun (t : TraceNode) (op : Operator) =>
        op.inputs = t.inputs ∧ op.output = t.output) ns ops := by
  intro ns
  induction ns with
  | nil =>
    intro ops h
    simp only [convertNodes, Except.ok.injEq] at h
    rw [← h]
    exact List.Forall₂.nil
  | cons t rest ih =>
    intro ops h
    simp only [convertNodes] at h
    cases hcn : convertNode t with
    | error e => rw [hcn] at h; exact absurd h (by simp)
    | ok op =>
      rw [hcn] at h
      cases hrec : convertNodes rest with
      | error e => rw [hrec] at h; exact absurd h (by simp)
      | ok ops2 =>
        rw [hrec] at h
        simp only [Except.ok.injEq] at h
        rw [← h]
        refine List.Forall₂.cons ?_ (ih hrec)
        simp only [convertNode] at hcn
        cases hsk : supportedKind t.kindTag with
        | some k =>
          rw [hsk] at hcn
          simp only [Except.ok.injEq] at hcn
          rw [← hcn]
          exact ⟨rfl, rfl⟩
        | none => rw [hsk] at hcn; exact absurd hcn (by simp)

theorem convertNodes_unsupported :
    ∀ {ns : List TraceNode},
      (∃ t ∈ ns, supportedKind t.kindTag = none) →
      ∃ tag, convertNodes ns = .error (.unsupportedOperator tag) ∧
        ∃ t ∈ ns, t.kindTag = tag ∧ supportedKind tag = none := by
  intro ns
  induction ns with
  | nil => intro h; simp at h
  | cons t rest ih =>
    intro h
    cases hsk : supportedKind t.kindTag with
    | none =>
      refine ⟨t.kindTag, ?_, t, by simp, rfl, hsk⟩
      simp [convertNodes, convertNode, hsk]
    | some k =>
      obtain ⟨u, hu, husk⟩ := h
      rcases List.mem_cons.mp hu with hut | hur
      · rw [hut, hsk] at husk; exact absurd husk (by simp)
      · obtain ⟨tag, htag, w, hw, hwtag, hwsk⟩ := ih ⟨u, hur, husk⟩
        refine ⟨tag, ?_, w, List.mem_cons.mpr (Or.inr hw), hwtag, hwsk⟩
        simp [convertNodes, convertNode, hsk, htag]

theorem forall₂_mem_right {R : α → β → Prop} :
    ∀ {l₁ : List α} {l₂ : List β}, List.Forall₂ R l₁ l₂ →
      ∀ b ∈ l₂, ∃ a ∈ l₁, R a b := by
  intro l₁ l₂ h
  induction h with
  | nil => intro b hb; simp at hb
  | cons hr htail ih =>
    intro b hb
    rcases List.mem_cons.mp hb with hb | hb
    · exact ⟨_, by simp, hb ▸ hr⟩
    · obtain ⟨a, ha, har⟩ := ih b hb
      exact ⟨a, List.mem_cons.mpr (Or.inr ha), har⟩

theorem traceNoForwardRefB_cons {t : TraceNode} {rest : List TraceNode}
    (h : traceNoForwardRefB (t :: rest) = true) :
    (∀ m ∈ t :: rest, ∀ v ∈ t.inputs, v ≠ m.output) ∧ traceNoForwardRefB rest = true := by
  simp only [traceNoForwardRefB, Bool.and_eq_true, List.all_eq_true] at h
  refine ⟨?_, h.2⟩
  intro m hm v hv
  simpa using h.1 m hm v hv

theorem noForwardRef_transfer :
    ∀ {ns : List TraceNode} {ops : List Operator},
      List.Forall₂ (fun (t : TraceNode) (op : Operator) =>
        op.inputs = t.inputs ∧ op.output = t.output) ns ops →
      traceNoForwardRefB ns = true → noForwardRefB ops = true := by
  intro ns ops h
  induction h with
  | nil => intro _; rfl
  | @cons t op rest ops2 hr htail ih =>
    intro h
    obtain ⟨hhead, htl⟩ := traceNoForwardRefB_cons h
    simp only [noForwardRefB, Bool.and_eq_true, List.all_eq_true]
    refine ⟨?_, ih htl⟩
    intro m hm v hv
    rcases List.mem_cons.mp hm with hm | hm
    · subst hm
      have := hhead t (by simp) v (by rw [← hr.1]; exact hv)
      simp [← hr.2] at this ⊢
      exact this
    · obtain ⟨u, hu, hur⟩ := forall₂_mem_right htail m hm
      have := hhead u (List.mem_cons.mpr (Or.inr hu)) v (by rw [← hr.1]; exact hv)
      simp [← hur.2] at this ⊢
      exact this

theorem parseChoice_ok :
    ∀ {given : Option String} {dflt v : String} {choices : List String},
      parseChoice given dflt choices = .ok v → v = dflt ∨ v ∈ choices := by
  intro given dflt v choices h
  cases given with
  | none => simp only [parseChoice, Except.ok.injEq] at h; exact Or.inl h.symm
  | some u =>
    simp only [parseChoice] at h
    by_cases hu : u ∈ choices
    · rw [if_pos hu] at h
      simp only [Except.ok.injEq] at h
      exact Or.inr (h ▸ hu)
    · rw [if_neg hu] at h
      exact absurd h (by simp)

/-! ## Claim theorems -/

/-- Claim C1: running a backend Generator (`generate_webgpu_descriptor` or
`generate_fallback_descriptor`) twice on the same Graph produces identical
Descriptor and Weight Buffer output, and the traversal's selection step
always extracts the earliest ready operator in original insertion order
(every operator placed before it fails the readiness test), so dependency
ties are resolved by stable insertion order, never arbitrarily. -/
theorem generator_deterministic_stable :
    (∀ g : Graph,
      generate_webgpu_descriptor g = generate_webgpu_descriptor g ∧
      generate_fallback_descriptor g = generate_fallback_descriptor g) ∧
    (∀ (p : Operator → Bool) (l : List Operator) (op : Operator) (rest : List Operator),
      extractFirst p l = some (op, rest) →
      ∃ l₁ l₂, l = l₁ ++ op :: l₂ ∧ rest = l₁ ++ l₂ ∧
        (∀ y ∈ l₁, p y = false) ∧ p op = true) :=
  ⟨fun _ => ⟨rfl, rfl⟩, fun _ _ _ _ h => extractFirst_spec h⟩

/-- Witness for C1 at a concrete selection step: among
`[exOpRelu, exOpAdd]` with only variables 0 and 1 available, the not-ready
`exOpRelu` is skipped and `exOpAdd` is selected. -/
theorem generator_deterministic_stable_witness :
    ∃ l₁ l₂, [exOpRelu, exOpAdd] = l₁ ++ exOpAdd :: l₂ ∧
      ([exOpRelu] : List Operator) = l₁ ++ l₂ ∧
      (∀ y ∈ l₁, ready [0, 1] y = false) ∧ ready [0, 1] exOpAdd = true :=
  generator_deterministic_stable.2 (ready [0, 1]) [exOpRelu, exOpAdd] exOpAdd
    [exOpRelu] (by decide)

/-- Claim C2: the WebGPU Descriptor's kernel registry (and hence its
concatenated kernel source) lists each referenced kernel exactly once, in
first-reference order of the traversal; no two entries have byte-identical
bodies; and any two traversed operators with identical
(kind, parameters, shapes) signature reference the same single registry
entry. -/
theorem webgpu_kernel_dedup :
    ∀ g : Graph,
      (generate_webgpu_descriptor g).1.kernelRegistry
        = firstOccur (referencedSignatures g) ∧
      ((generate_webgpu_descriptor g).1.kernelRegistry).Nodup ∧
      (∀ s, s ∈ (generate_webgpu_descriptor g).1.kernelRegistry ↔
        s ∈ referencedSignatures g) ∧
      (kernelSources (generate_webgpu_descriptor g).1).Nodup ∧
      (∀ op ∈ traverse g,
        ((generate_webgpu_descriptor g).1.kernelRegistry).count (sigOf op) = 1) ∧
      concat_kernel_sources (generate_webgpu_descriptor g).1
        = String.join ((firstOccur (referencedSignatures g)).map sourceOf) := by
  intro g
  have hreg : (generate_webgpu_descriptor g).1.kernelRegistry
      = firstOccur (referencedSignatures g) := by
    simp only [generate_webgpu_descriptor]
    exact buildRegistry_nil_eq_firstOccur _
  refine ⟨hreg, ?_, ?_, ?_, ?_, ?_⟩
  · rw [hreg]; exact nodup_firstOccur _
  · intro s; rw [hreg]; exact mem_firstOccur
  · have : kernelSources (generate_webgpu_descriptor g).1
        = ((generate_webgpu_descriptor g).1.kernelRegistry).map sourceOf := rfl
    rw [this, hreg]
    exact List.Nodup.map (fun a b h => sourceOf_inj a b h) (nodup_firstOccur _)
  · intro op hop
    rw [hreg]
    apply List.count_eq_one_of_mem (nodup_firstOccur _)
    rw [mem_firstOccur]
    exact List.mem_map_of_mem sigOf hop
  · rw [concat_kernel_sources, hreg]

/-- Witness for C2 at `exGraph`: the signature of the traversed operator
`exOpAdd` occurs exactly once in the registry. -/
theorem webgpu_kernel_dedup_witness :
    ((generate_webgpu_descriptor exGraph).1.kernelRegistry).count (sigOf exOpAdd) = 1 :=
  (webgpu_kernel_dedup exGraph).2.2.2.2.1 exOpAdd (by decide)

/-- The packed variables of `weightList` are exactly `packOrder`. -/
theorem weightList_fst (g : Graph) :
    (weightList g).map Prod.fst = packOrder g := by
  simp only [weightList, List.map_map]
  have : (Prod.fst ∘ fun v : Nat => (v, (envLookup g.consts v).getD []))
      = fun v : Nat => v := rfl
  rw [this]
  exact List.map_id _

/-- Claim C3: for a graph in which every constant Variable is referenced
by the traversal, each constant has exactly one (offset, length) entry in
the Descriptor; entries never overlap and never extend past the buffer
end; the buffer is the concatenation of the constants' data in traversal
(first-use) order; entry lengths match the data; and the fallback
generator packs identically. -/
theorem weight_buffer_sound (g : Graph)
    (href : ∀ v ∈ g.consts.map Prod.fst, v ∈ constRefs g) :
    (∀ v ∈ g.consts.map Prod.fst,
      ((generate_webgpu_descriptor g).1.weightEntries.map (fun e => e.1)).count v = 1) ∧
    ((generate_webgpu_descriptor g).1.weightEntries).Pairwise
      (fun a b => a.2.1 + a.2.2 ≤ b.2.1) ∧
    (∀ e ∈ (generate_webgpu_descriptor g).1.weightEntries,
      e.2.1 + e.2.2 ≤ (generate_webgpu_descriptor g).2.length) ∧
    (generate_webgpu_descriptor g).2 = (weightList g).flatMap Prod.snd ∧
    List.Forall₂ (fun (e : Nat × Nat × Nat) (vd : Nat × Tensor) =>
      e.1 = vd.1 ∧ e.2.2 = vd.2.length)
      (generate_webgpu_descriptor g).1.weightEntries (weightList g) ∧
    (generate_fallback_descriptor g).1.weightEntries
      = (generate_webgpu_descriptor g).1.weightEntries ∧
    (generate_fallback_descriptor g).2 = (generate_webgpu_descriptor g).2 := by
  have hentries : (generate_webgpu_descriptor g).1.weightEntries
      = (packAux 0 (weightList g)).1 := rfl
  have hbuf : (generate_webgpu_descriptor g).2 = (packAux 0 (weightList g)).2 := rfl
  refine ⟨?_, ?_, ?_, ?_, ?_, rfl, rfl⟩
  · intro v hv
    rw [hentries, packAux_entries_fst, weightList_fst, packOrder,
      buildRegistry_nil_eq_firstOccur]
    apply List.count_eq_one_of_mem (nodup_firstOccur _)
    rw [mem_firstOccur]
    exact href v hv
  · rw [hentries]
    exact packAux_pairwise (weightList g) 0
  · intro e he
    rw [hentries] at he
    rw [hbuf]
    simpa using (packAux_bounds (weightList g) 0 e he).2
  · rw [hbuf]
    exact packAux_buffer (weightList g) 0
  · rw [hentries]
    exact packAux_entry_shape (weightList g) 0

/-- Witness for C3 at `exGraph`: its constant Variable 0 is referenced, and
has exactly one weight entry. -/
theorem weight_buffer_sound_witness :
    ((generate_webgpu_descriptor exGraph).1.weightEntries.map (fun e => e.1)).count 0 = 1 :=
  (weight_buffer_sound exGraph (by decide)).1 0 (by decide)

/-- Claim C4: for every well-formed Graph (unique operator outputs that do
not shadow constants or inputs, no forward references) and every input
assignment, the Graph returned by the Optimizer evaluates to exactly the
same outputs as the unoptimized Graph.  The evaluator is exact, so
equality is the tolerance-zero instance of equality within floating-point
tolerance. -/
theorem optimize_preserves_semantics (g : Graph) (ins : List (Nat × Tensor))
    (hnd : (g.operators.map (fun op => op.output)).Nodup)
    (hfresh : ∀ op ∈ g.operators, envLookup (g.consts ++ ins) op.output = none)
    (hfwd : noForwardRefB g.operators = true) :
    evalGraph (optimize g) ins = evalGraph g ins := by
  have hfc : ∀ op ∈ g.operators, envLookup g.consts op.output = none := by
    intro op hop
    exact (envLookup_append_both_none (hfresh op hop)).1
  have hmain := foldOps_correct g.operators g.consts (g.consts ++ ins)
    (fun v t hv => envLookup_append_some ins hv) hfc hfresh hnd hfwd
  simp only [evalGraph, optimize, List.append_assoc]
  apply mapCongrMem
  intro v _
  rw [← hmain v]

/-- Witness for C4: optimizing the all-constant graph `exFoldGraph`
preserves its evaluation on a concrete input assignment. -/
theorem optimize_preserves_semantics_witness :
    evalGraph (optimize exFoldGraph) [(4, [7])] = evalGraph exFoldGraph [(4, [7])] :=
  optimize_preserves_semantics exFoldGraph [(4, [7])] (by decide) (by decide) (by decide)

/-- Claim C5: every Graph produced by the Converter from a well-formed
trace, and every Graph produced by the Optimizer from an acyclic Graph, is
acyclic in its operator dependency relation: a topological ordering of its
operators exists (an order with no forward references, as a permutation of
the operator list). -/
theorem graphs_acyclic :
    (∀ (tr : ChainerTrace) (ins outs : List Nat) (g : Graph),
      traceNoForwardRefB tr.nodes = true → convert tr ins outs = .ok g →
      ∃ order : List Operator, g.operators.Perm order ∧ noForwardRefB order = true) ∧
    (∀ g : Graph, noForwardRefB g.operators = true →
      ∃ order : List Operator,
        (optimize g).operators.Perm order ∧ noForwardRefB order = true) := by
  constructor
  · intro tr ins outs g htr hcv
    simp only [convert] at hcv
    cases hcn : convertNodes tr.nodes with
    | error e => rw [hcn] at hcv; exact absurd hcv (by simp)
    | ok ops =>
      rw [hcn] at hcv
      simp only [Except.ok.injEq] at hcv
      have hops : g.operators = ops := by rw [← hcv]
      refine ⟨g.operators, List.Perm.refl _, ?_⟩
      rw [hops]
      exact noForwardRef_transfer (convertNodes_shape hcn) htr
  · intro g hg
    refine ⟨(optimize g).operators, List.Perm.refl _, ?_⟩
    have hsub : List.Sublist (optimize g).operators g.operators :=
      foldOps_snd_sublist g.operators g.consts
    exact noForwardRefB_sublist hsub hg

/-- Witness for C5: the graph converted from `exTrace`, and the optimized
`exGraph`, both admit topological orders. -/
theorem graphs_acyclic_witness :
    (∃ order : List Operator,
      exConvGraph.operators.Perm order ∧ noForwardRefB order = true) ∧
    (∃ order : List Operator,
      (optimize exGraph).operators.Perm order ∧ noForwardRefB order = true) :=
  ⟨graphs_acyclic.1 exTrace [0] [2] exConvGraph (by decide) (by rfl),
   graphs_acyclic.2 exGraph (by decide)⟩

/-- Claim C6: a trace containing an operator kind outside the supported
set makes the Converter fail with `UnsupportedOperator` naming an
offending kind from the trace, returning no Graph; and on success the
Converter emits exactly one operator per trace node — it never silently
drops a node. -/
theorem converter_unsupported_fails :
    (∀ (tr : ChainerTrace) (ins outs : List Nat),
      (∃ t ∈ tr.nodes, supportedKind t.kindTag = none) →
      ∃ tag, convert tr ins outs = .error (.unsupportedOperator tag) ∧
        ∃ t ∈ tr.nodes, t.kindTag = tag ∧ supportedKind tag = none) ∧
    (∀ (ns : List TraceNode) (ops : List Operator),
      convertNodes ns = .ok ops → ops.length = ns.length) := by
  constructor
  · intro tr ins outs h
    obtain ⟨tag, htag, t, ht, httag, htsk⟩ := convertNodes_unsupported h
    exact ⟨tag, by simp [convert, htag], t, ht, httag, htsk⟩
  · intro ns ops h
    exact convertNodes_length h

/-- Witness for C6: converting `exBadTrace` fails naming an unsupported
kind, and converting the nodes of `exTrace` drops no node. -/
theorem converter_unsupported_fails_witness :
    (∃ tag, convert exBadTrace [0] [2] = .error (.unsupportedOperator tag) ∧
      ∃ t ∈ exBadTrace.nodes, t.kindTag = tag ∧ supportedKind tag = none) ∧
    exConvGraph.operators.length = exTrace.nodes.length :=
  ⟨converter_unsupported_fails.1 exBadTrace [0] [2] (by decide),
   converter_unsupported_fails.2 exTrace.nodes exConvGraph.operators (by rfl)⟩

/-- Claim C7: the pipeline runs its stages strictly in the order
Converter, then (only when requested) Optimizer, then Backend Generator:
it is exactly the composition of those stage functions, so data flows
one-directionally and no stage's output feeds back into an earlier
stage. -/
theorem pipeline_stage_order :
    ∀ (tr : ChainerTrace) (ins outs : List Nat) (b : Backend),
      pipeline tr ins outs true b
        = (convert tr ins outs).map (fun g => runBackend b (optimize g)) ∧
      pipeline tr ins outs false b
        = (convert tr ins outs).map (fun g => runBackend b g) := by
  intro tr ins outs b
  cases h : convert tr ins outs with
  | error e => simp [pipeline, h, Except.map]
  | ok g => simp [pipeline, h, Except.map]

/-- Claim C8: each driver pipeline run is a pure input-to-output
computation — the result (Descriptor and Weight Buffer) does not depend on
the debug flag — and, for runs that reach the pipeline, diagnostic output
is emitted if and only if the debug flag is set. -/
theorem pipeline_pure_and_debug_gated :
    (∀ (tr : ChainerTrace) (ins outs : List Nat) (args : ResnetArgs) (d₁ d₂ : Bool),
      (mainResnetRun tr ins outs args d₁).1 = (mainResnetRun tr ins outs args d₂).1) ∧
    (∀ (tr : ChainerTrace) (ins outs : List Nat) (args : MainArgs) (d₁ d₂ : Bool),
      (mainRun tr ins outs args d₁).1 = (mainRun tr ins outs args d₂).1) ∧
    (∀ (tr : ChainerTrace) (ins outs : List Nat) (args : ResnetArgs) (d : Bool)
      (g : Graph), convert tr ins outs = .ok g →
      ((mainResnetRun tr ins outs args d).2 ≠ [] ↔ d = true)) ∧
    (∀ (tr : ChainerTrace) (ins outs : List Nat) (args : MainArgs) (d : Bool)
      (g : Graph) (m : String), modelLink args.model = some m →
      convert tr ins outs = .ok g →
      ((mainRun tr ins outs args d).2 ≠ [] ↔ d = true)) := by
  refine ⟨?_, ?_, ?_, ?_⟩
  · intro tr ins outs args d₁ d₂
    cases h : convert tr ins outs with
    | error e => simp [mainResnetRun, h]
    | ok g =>
      cases hb : backendDispatch args.backend <;> simp [mainResnetRun, h, hb]
  · intro tr ins outs args d₁ d₂
    cases hm : modelLink args.model with
    | none => simp [mainRun, hm]
    | some m =>
      cases h : convert tr ins outs with
      | error e => simp [mainRun, hm, h]
      | ok g =>
        cases hb : backendDispatch args.backend <;> simp [mainRun, hm, h, hb]
  · intro tr ins outs args d g h
    cases d <;>
      cases hb : backendDispatch args.backend <;>
        simp [mainResnetRun, h, hb, dump]
  · intro tr ins outs args d g m hm h
    cases d <;>
      cases hb : backendDispatch args.backend <;>
        simp [mainRun, hm, h, hb, dump]

/-- Witness for C8: a concrete `main_resnet` run's result is independent
of the debug flag, and a concrete `main` run emits diagnostics exactly
when the flag is set. -/
theorem pipeline_pure_and_debug_gated_witness :
    (mainResnetRun exTrace [0] [2] ⟨"vgg16", "webgpu", false⟩ true).1
      = (mainResnetRun exTrace [0] [2] ⟨"vgg16", "webgpu", false⟩ false).1 ∧
    ((mainRun exTrace [0] [2] ⟨"MLP", some 16, "m.npz", "webgpu", false⟩ true).2 ≠ []
      ↔ true = true) :=
  ⟨pipeline_pure_and_debug_gated.1 exTrace [0] [2] ⟨"vgg16", "webgpu", false⟩ true false,
   pipeline_pure_and_debug_gated.2.2.2 exTrace [0] [2]
     ⟨"MLP", some 16, "m.npz", "webgpu", false⟩ true exConvGraph "MLP"
     (by rfl) (by rfl)⟩

/-- Claim C9: in both drivers, every argument vector accepted by the
argument parser yields a backend in {webgpu, fallback}, each handled by an
earlier dispatch branch, so the final `raise NotImplementedError()` branch
is unreachable. -/
theorem backend_dispatch_total :
    (∀ (raw : RawResnetArgs) (args : ResnetArgs),
      parse_args_resnet raw = .ok args →
      backendDispatch args.backend ≠ Dispatch.notImplementedError) ∧
    (∀ (raw : RawMainArgs) (args : MainArgs),
      parse_args_main raw = .ok args →
      backendDispatch args.backend ≠ Dispatch.notImplementedError) := by
  have hchoice : ∀ b : String, b = "webgpu" ∨ b ∈ ["webgpu", "fallback"] →
      backendDispatch b ≠ Dispatch.notImplementedError := by
    intro b hb
    have hb2 : b = "webgpu" ∨ b = "fallback" := by
      rcases hb with hb | hb
      · exact Or.inl hb
      · simpa using hb
    rcases hb2 with hb2 | hb2 <;> simp [backendDispatch, hb2]
  constructor
  · intro raw args h
    simp only [parse_args_resnet] at h
    cases hm : parseChoice raw.model "vgg16" ["vgg16", "resnet50"] with
    | error v => rw [hm] at h; exact absurd h (by simp)
    | ok m =>
      rw [hm] at h
      cases hb : parseChoice raw.backend "webgpu" ["webgpu", "fallback"] with
      | error v => rw [hb] at h; exact absurd h (by simp)
      | ok b =>
        rw [hb] at h
        simp only [Except.ok.injEq] at h
        have : args.backend = b := by rw [← h]
        rw [this]
        exact hchoice b (parseChoice_ok hb)
  · intro raw args h
    simp only [parse_args_main] at h
    cases hb : parseChoice raw.backend "webgpu" ["webgpu", "fallback"] with
    | error v => rw [hb] at h; exact absurd h (by simp)
    | ok b =>
      rw [hb] at h
      simp only [Except.ok.injEq] at h
      have : args.backend = b := by rw [← h]
      rw [this]
      exact hchoice b (parseChoice_ok hb)

/-- Witness for C9: a concrete accepted argument vector (explicit
`--backend fallback`) does not reach the NotImplementedError branch. -/
theorem backend_dispatch_total_witness :
    backendDispatch (ResnetArgs.mk "vgg16" "fallback" false).backend
      ≠ Dispatch.notImplementedError :=
  backend_dispatch_total.1 ⟨none, some "fallback", false⟩
    ⟨"vgg16", "fallback", false⟩ (by rfl)

/-- Claim C10: in the driver `main`, any model argument outside
{MLP, CNN2, CNN3} leaves the local `link` unassigned, so the run fails
with an unbound-local NameError at the first use of `link`, after only the
dataset load — before any model loading or graph conversion. -/
theorem main_unknown_model_unbound_link :
    ∀ args : MainArgs, args.model ∉ (["MLP", "CNN2", "CNN3"] : List String) →
      mainSteps args = ([Step.loadDataset], MainOutcome.unboundLocalNameError "link") ∧
      Step.loadModel ∉ (mainSteps args).1 ∧
      Step.convertGraph ∉ (mainSteps args).1 := by
  intro args h
  simp only [List.mem_cons, List.mem_singleton, not_or] at h
  obtain ⟨h1, h2, h3⟩ := h
  have hlink : modelLink args.model = none := by
    simp [modelLink, h1, h2, h3]
  refine ⟨by simp [mainSteps, hlink], ?_, ?_⟩ <;> simp [mainSteps, hlink]

/-- Witness for C10: running `main` with model name "ResNet50" fails with
the unbound-local error after only the dataset load. -/
theorem main_unknown_model_unbound_link_witness :
    mainSteps ⟨"ResNet50", none, "model.npz", "webgpu", false⟩
      = ([Step.loadDataset], MainOutcome.unboundLocalNameError "link") ∧
    Step.loadModel ∉ (mainSteps ⟨"ResNet50", none, "model.npz", "webgpu", false⟩).1 ∧
    Step.convertGraph ∉ (mainSteps ⟨"ResNet50", none, "model.npz", "webgpu", false⟩).1 :=
  main_unknown_model_unbound_link ⟨"ResNet50", none, "model.npz", "webgpu", false⟩
    (by decide)

end WebDNN
